import Mathlib

/-!
Shallow embedding of `src/util/virqemu.c`: the JSON-value-to-qemu-commandline
encoder.  The value tree, the recursive walker, the object-argument assembler
and the LUKS option composer are translated from the source.  Collaborators
that live outside this repository snapshot (`virBufferEscape`,
`virJSONValueGetArrayAsBitmap`, the `virBitmap` iteration primitives and
`virJSONValueObjectForeachKeyValue`) are modelled from the specification, as
noted on their doc comments.  The output buffer is modelled as a `String`
that calls append to.
-/

namespace Virqemu

/-- The JSON-like value tree (`virJSONValue`): tagged variant over string,
number (carried as already-formatted decimal text), boolean, array, object
and null.  Object fields are an ordered association list, iteration order
being insertion order. -/
inductive VirJSONValue where
  | vstring (s : String)
  | vnumber (tok : String)
  | vboolean (b : Bool)
  | varray (elems : List VirJSONValue)
  | vobject (fields : List (String × VirJSONValue))
  | vnull

/-- Error kinds the encoder can report: nested-array rejection, object/null
rejection, and the foreach helper's rejection of a non-object argument. -/
inductive VirError where
  | unsupportedNesting
  | unsupportedType
  | notAnObject
deriving DecidableEq

/-- Modelled from the spec: the character-level behaviour of
`virBufferEscape(buf, ',', ",", "%s", str)` (from `virbuffer.c`, which is not
part of this snapshot): copy the string character by character, doubling
every literal comma, all other characters passing through unchanged. -/
def escapeCommaChars : List Char → String
  | [] => ""
  | c :: rest => (if c = ',' then ",," else String.singleton c) ++ escapeCommaChars rest

/-- `virQEMUBuildBufferEscapeComma`: append `str` to `buf`, escaping each
`','` by doubling it (the call `virBufferEscape(buf, ',', ",", "%s", str)`). -/
def virQEMUBuildBufferEscapeComma (buf : String) (str : String) : String :=
  buf ++ escapeCommaChars str.data

/-- Decimal value of a digit list (most significant first). -/
def decimalVal (cs : List Char) : Nat :=
  cs.foldl (fun acc c => acc * 10 + (c.toNat - '0'.toNat)) 0

/-- Modelled from the spec: parsing a number token as a non-negative integer
(the `virStrToLong_ullp` conversion used by `virJSONValueGetArrayAsBitmap`,
not part of this snapshot).  Succeeds exactly on non-empty all-digit
tokens. -/
def parseDecimalNat (s : String) : Option Nat :=
  if s.data ≠ [] ∧ s.data.all Char.isDigit then some (decimalVal s.data) else none

/-- A JSON value viewed as a non-negative integer: must be a number whose
token parses as a non-negative decimal integer. -/
def virJSONValueToNat : VirJSONValue → Option Nat
  | .vnumber tok => parseDecimalNat tok
  | _ => none

/-- Modelled from the spec: `virJSONValueGetArrayAsBitmap` (from `virjson.c`,
not part of this snapshot).  The bitmap view of an array is only
constructible when every element is a distinct non-negative integer;
otherwise construction fails.  The bitmap is represented as the ascending
list of its set bits. -/
def virJSONValueGetArrayAsBitmap (elems : List VirJSONValue) : Option (List Nat) :=
  match elems.mapM virJSONValueToNat with
  | none => none
  | some ns => if ns.Nodup then some (List.insertionSort (· ≤ ·) ns) else none

/-- Modelled from the spec: `virBitmapNextSetBit b pos` returns the position
of the first set bit after position `pos`, or `-1` when there is none.  The
bitmap is its ascending list of set bits. -/
def virBitmapNextSetBit : List Nat → Int → Int
  | [], _ => -1
  | n :: rest, pos => if pos < (n : Int) then (n : Int) else virBitmapNextSetBit rest pos

/-- Modelled from the spec: `virBitmapLastSetBit b` returns the position of
the highest set bit, or `-1` for an empty bitmap. -/
def virBitmapLastSetBit : List Nat → Int
  | [] => -1
  | [n] => (n : Int)
  | _ :: rest => virBitmapLastSetBit rest

/-- Scan positions `n, n+1, ...` (with `fuel` positions left before the
bitmap size is reached) for the first one that is not a set bit; `-1` when
the scan runs past the size. -/
def nextClearAux (b : List Nat) : Nat → Nat → Int
  | _, 0 => -1
  | n, fuel + 1 => if n ∈ b then nextClearAux b (n + 1) fuel else (n : Int)

/-- Modelled from the spec: `virBitmapNextClearBit b size pos` returns the
position of the first clear bit after position `pos` within a bitmap of
`size` bits, or `-1` when every later position below `size` is set. -/
def virBitmapNextClearBit (b : List Nat) (size : Nat) (pos : Int) : Int :=
  nextClearAux b (pos + 1).toNat (size - (pos + 1).toNat)

/-- Modelled from the spec: the bitmap produced by
`virJSONValueGetArrayAsBitmap` has `max + 1` bits, `max` being the largest
array element. -/
def bitmapSize (b : List Nat) : Nat :=
  b.foldr max 0 + 1

/-- The bitmap run-compression loop of the `VIR_JSON_TYPE_ARRAY` case of
`virQEMUBuildCommandLineJSONRecurse`:

    while ((pos = virBitmapNextSetBit(bitmap, pos)) > -1) {
        if ((end = virBitmapNextClearBit(bitmap, pos)) < 0)
            end = virBitmapLastSetBit(bitmap) + 1;
        if (end - 1 > pos) {
            virBufferAsprintf(buf, ",%s=%zd-%zd", key, pos, end - 1);
            pos = end;
        } else {
            virBufferAsprintf(buf, ",%s=%zd", key, pos);
        }
    }

The loop terminates because `pos` strictly increases; it is given fuel
(`b.length + 1` at the call site), which the run characterisation below
shows is never exhausted. -/
def bitmapRunLoop (key : String) (b : List Nat) (size : Nat) :
    String → Int → Nat → String
  | buf, _, 0 => buf
  | buf, pos, fuel + 1 =>
      let p := virBitmapNextSetBit b pos
      if p > -1 then
        let e0 := virBitmapNextClearBit b size p
        let e := if e0 < 0 then virBitmapLastSetBit b + 1 else e0
        if e - 1 > p then
          bitmapRunLoop key b size
            (buf ++ "," ++ key ++ "=" ++ toString p ++ "-" ++ toString (e - 1)) e fuel
        else
          bitmapRunLoop key b size (buf ++ "," ++ key ++ "=" ++ toString p) p fuel
      else buf

mutual

/-- `virQEMUBuildCommandLineJSONRecurse`: the value-tree walker.  Dispatches
on the value kind; scalars append one `,key=value` fragment; a non-nested
array is bitmap-compressed when possible and otherwise encoded element by
element with `nested = true`; nested arrays, objects and nulls are
rejected.  Returns the updated buffer together with `none` on success (the C
function returns `0`) or the reported error (the C function returns `-1`). -/
def virQEMUBuildCommandLineJSONRecurse (key : String) (value : VirJSONValue)
    (buf : String) (nested : Bool) : String × Option VirError :=
  match value with
  | .vstring s =>
      (virQEMUBuildBufferEscapeComma (buf ++ "," ++ key ++ "=") s, none)
  | .vnumber tok =>
      (buf ++ "," ++ key ++ "=" ++ tok, none)
  | .vboolean b =>
      if b then (buf ++ "," ++ key ++ "=yes", none)
      else (buf ++ "," ++ key ++ "=no", none)
  | .varray elems =>
      if nested then
        (buf, some .unsupportedNesting)
      else
        match virJSONValueGetArrayAsBitmap elems with
        | some bitmap =>
            (bitmapRunLoop key bitmap (bitmapSize bitmap) buf (-1) (bitmap.length + 1),
             none)
        | none =>
            virQEMUBuildCommandLineJSONRecurseArray key elems buf
  | .vobject _ => (buf, some .unsupportedType)
  | .vnull => (buf, some .unsupportedType)

/-- The fallback loop of the array case: encode each member under the same
key, recursing with `nested = true`, stopping at the first failure. -/
def virQEMUBuildCommandLineJSONRecurseArray (key : String)
    (elems : List VirJSONValue) (buf : String) : String × Option VirError :=
  match elems with
  | [] => (buf, none)
  | e :: rest =>
      match virQEMUBuildCommandLineJSONRecurse key e buf true with
      | (buf2, none) => virQEMUBuildCommandLineJSONRecurseArray key rest buf2
      | (buf2, some err) => (buf2, some err)

end

/-- `virQEMUBuildCommandLineJSONIterate`: the foreach callback; walks one
key/value pair with `nested = false`. -/
def virQEMUBuildCommandLineJSONIterate (key : String) (value : VirJSONValue)
    (buf : String) : String × Option VirError :=
  virQEMUBuildCommandLineJSONRecurse key value buf false

/-- Iterate a callback over an association list of object fields, stopping
at the first failure. -/
def foreachPairs (cb : String → VirJSONValue → String → String × Option VirError) :
    List (String × VirJSONValue) → String → String × Option VirError
  | [], buf => (buf, none)
  | (k, v) :: rest, buf =>
      match cb k v buf with
      | (buf2, none) => foreachPairs cb rest buf2
      | (buf2, some err) => (buf2, some err)

/-- Modelled from the spec: `virJSONValueObjectForeachKeyValue` (from
`virjson.c`, not part of this snapshot) calls the callback once per
key/value pair of an object, in iteration order, stopping at the first
callback failure; a non-object argument is rejected. -/
def virJSONValueObjectForeachKeyValue (value : VirJSONValue)
    (cb : String → VirJSONValue → String → String × Option VirError)
    (buf : String) : String × Option VirError :=
  match value with
  | .vobject fields => foreachPairs cb fields buf
  | _ => (buf, some .notAnObject)

/-- `virQEMUBuildCommandLineJSON`: format a JSON object's fields into
command-line parameters by iterating the walker over its key/value pairs. -/
def virQEMUBuildCommandLineJSON (value : VirJSONValue) (buf : String) :
    String × Option VirError :=
  virJSONValueObjectForeachKeyValue value virQEMUBuildCommandLineJSONIterate buf

/-- `virQEMUBuildObjectCommandlineFromJSON`: build `"<type>,id=<alias>"`
followed by the encoded props; `none` models the C function returning NULL
after a walker failure. -/
def virQEMUBuildObjectCommandlineFromJSON (ty : String) (aliasStr : String)
    (props : VirJSONValue) : Option String :=
  let buf := ty ++ ",id=" ++ aliasStr
  match virQEMUBuildCommandLineJSON props buf with
  | (buf2, none) => some buf2
  | (_, some _) => none

/-- `virStorageEncryptionInfoDef`: the encryption-options record.  A C NULL
string pointer is modelled as `none`; `cipher_size` is the unsigned size
value. -/
structure virStorageEncryptionInfoDef where
  cipher_name : Option String
  cipher_size : Nat
  cipher_mode : Option String
  cipher_hash : Option String
  ivgen_name : Option String
  ivgen_hash : Option String

/-- `virQEMUBuildLuksOpts`: emit `key-secret=<alias>,` and the encryption
option chain gated by field presence, exactly as the source's early-return
structure. -/
def virQEMUBuildLuksOpts (buf : String) (enc : virStorageEncryptionInfoDef)
    (aliasStr : String) : String :=
  let buf := buf ++ "key-secret=" ++ aliasStr ++ ","
  match enc.cipher_name with
  | none => buf
  | some cname =>
      let buf := buf ++ "cipher-alg="
      let buf := virQEMUBuildBufferEscapeComma buf cname
      let buf := buf ++ "-" ++ toString enc.cipher_size ++ ","
      let buf :=
        match enc.cipher_mode with
        | none => buf
        | some cmode =>
            virQEMUBuildBufferEscapeComma (buf ++ "cipher-mode=") cmode ++ ","
      let buf :=
        match enc.cipher_hash with
        | none => buf
        | some chash =>
            virQEMUBuildBufferEscapeComma (buf ++ "hash-alg=") chash ++ ","
      match enc.ivgen_name with
      | none => buf
      | some iname =>
          let buf := virQEMUBuildBufferEscapeComma (buf ++ "ivgen-alg=") iname ++ ","
          match enc.ivgen_hash with
          | none => buf
          | some ihash =>
              virQEMUBuildBufferEscapeComma (buf ++ "ivgen-hash-alg=") ihash ++ ","

/-! ### Characterisation-side definitions -/

/-- Concatenation of a list of strings (used to state the walkers' output as
one fragment per item). -/
def sjoin : List String → String
  | [] => ""
  | s :: rest => s ++ sjoin rest

/-- `takeRun last l` consumes the longest prefix of `l` continuing the run of
consecutive integers ending at `last`, returning the run's final value and
the remaining suffix. -/
def takeRun : Nat → List Nat → Nat × List Nat
  | last, [] => (last, [])
  | last, n :: rest =>
      if n = last + 1 then takeRun n rest else (last, n :: rest)

/-- Fuel-driven maximal-run decomposition of an ascending list (the fuel is
always at least the list length at every call). -/
def runsAux : Nat → List Nat → List (Nat × Nat)
  | _, [] => []
  | 0, _ :: _ => []
  | fuel + 1, a :: ts =>
      let r := takeRun a ts
      (a, r.1) :: runsAux fuel r.2

/-- The maximal runs of consecutive integers of an ascending list, as
`(first, last)` pairs in ascending order. -/
def runs (l : List Nat) : List (Nat × Nat) :=
  runsAux l.length l

/-- The fragment the run-compressor emits for one maximal run: a singleton
run yields `,<key>=<n>`, a longer run `,<key>=<first>-<last>`. -/
def runFragment (key : String) (r : Nat × Nat) : String :=
  if r.1 < r.2 then
    "," ++ key ++ "=" ++ toString r.1 ++ "-" ++ toString r.2
  else
    "," ++ key ++ "=" ++ toString r.1

/-- Scalar values: the kinds a nested (depth-one) walker call accepts. -/
def isScalar : VirJSONValue → Bool
  | .vstring _ => true
  | .vnumber _ => true
  | .vboolean _ => true
  | _ => false

/-- The values a top-level (`nested = false`) walker call accepts: scalars,
and arrays that are bitmap-representable or contain only scalars. -/
def encodeOk : VirJSONValue → Bool
  | .vstring _ => true
  | .vnumber _ => true
  | .vboolean _ => true
  | .varray elems =>
      (virJSONValueGetArrayAsBitmap elems).isSome || elems.all isScalar
  | .vobject _ => false
  | .vnull => false

/-- One optional LUKS field: `label=<escaped value>,` when present, nothing
when absent. -/
def optLuksField (label : String) : Option String → String
  | none => ""
  | some v => label ++ escapeCommaChars v.data ++ ","

/-- The LUKS option chain as the specification words it: `key-secret`
always; the cipher block only when the cipher name is present (mode and hash
optional inside it); the ivgen block only when the ivgen name is present
(ivgen hash optional inside it). -/
def luksOptsSpec (enc : virStorageEncryptionInfoDef) (aliasStr : String) : String :=
  "key-secret=" ++ aliasStr ++ "," ++
  match enc.cipher_name with
  | none => ""
  | some cname =>
      "cipher-alg=" ++ escapeCommaChars cname.data ++ "-"
        ++ toString enc.cipher_size ++ "," ++
      optLuksField "cipher-mode=" enc.cipher_mode ++
      optLuksField "hash-alg=" enc.cipher_hash ++
      match enc.ivgen_name with
      | none => ""
      | some iname =>
          "ivgen-alg=" ++ escapeCommaChars iname.data ++ "," ++
          optLuksField "ivgen-hash-alg=" enc.ivgen_hash

/-! ### Basic lemmas -/

theorem sjoin_append (l1 l2 : List String) :
    sjoin (l1 ++ l2) = sjoin l1 ++ sjoin l2 := by
  induction l1 with
  | nil => simp [sjoin, String.empty_append]
  | cons s rest ih => simp [sjoin, ih, String.append_assoc]

theorem escapeCommaChars_eq_sjoin (cs : List Char) :
    escapeCommaChars cs
      = sjoin (cs.map fun c => if c = ',' then ",," else String.singleton c) := by
  induction cs with
  | nil => rfl
  | cons c rest ih => simp [escapeCommaChars, sjoin, ih]

theorem virQEMUBuildBufferEscapeComma_append (buf str : String) :
    virQEMUBuildBufferEscapeComma buf str = buf ++ escapeCommaChars str.data := rfl

/-- The set-bit scan returns `-1` when every set bit is at or before `pos`. -/
theorem virBitmapNextSetBit_none (b : List Nat) (pos : Int)
    (h : ∀ n ∈ b, (n : Int) ≤ pos) : virBitmapNextSetBit b pos = -1 := by
  induction b with
  | nil => rfl
  | cons n rest ih =>
      have hn : (n : Int) ≤ pos := h n (by simp)
      simp only [virBitmapNextSetBit, if_neg (not_lt.mpr hn)]
      exact ih fun x hx => h x (by simp [hx])

/-- The set-bit scan finds the head of the remaining suffix when everything
before it is at or before `pos`. -/
theorem virBitmapNextSetBit_found (done : List Nat) (t : Nat) (ts : List Nat)
    (pos : Int) (hdone : ∀ n ∈ done, (n : Int) ≤ pos) (ht : pos < (t : Int)) :
    virBitmapNextSetBit (done ++ t :: ts) pos = (t : Int) := by
  induction done with
  | nil => simp [virBitmapNextSetBit, if_pos ht]
  | cons d rest ih =>
      have hd : (d : Int) ≤ pos := hdone d (by simp)
      simp only [List.cons_append, virBitmapNextSetBit, if_neg (not_lt.mpr hd)]
      exact ih fun x hx => hdone x (by simp [hx])

/-- The highest set bit of a sorted bitmap whose top element is `m`. -/
theorem virBitmapLastSetBit_eq (b : List Nat) (m : Nat)
    (hsorted : b.Pairwise (· < ·)) (hm : m ∈ b) (hmax : ∀ n ∈ b, n ≤ m) :
    virBitmapLastSetBit b = (m : Int) := by
  induction b with
  | nil => cases hm
  | cons a rest ih =>
      cases rest with
      | nil =>
          have : m = a := by simpa using hm
          subst this; rfl
      | cons a2 rest2 =>
          have hstep : virBitmapLastSetBit (a :: a2 :: rest2)
              = virBitmapLastSetBit (a2 :: rest2) := rfl
          rw [hstep]
          have hsorted' : (a2 :: rest2).Pairwise (· < ·) := hsorted.of_cons
          have hma : m ≠ a := by
            intro he
            have h2 : a < a2 := (List.pairwise_cons.mp hsorted).1 a2 (by simp)
            have h3 : a2 ≤ m := hmax a2 (by simp)
            omega
          have hm' : m ∈ a2 :: rest2 := by
            rcases hm with _ | h
            · exact absurd rfl hma
            · assumption
          exact ih hsorted' hm' fun n hn => hmax n (by simp [hn])

/-- The clear-bit scan finds the first gap `m + 1` of a run. -/
theorem nextClearAux_found (b : List Nat) (m : Nat) :
    ∀ fuel j, (∀ k, j ≤ k → k ≤ m → k ∈ b) → m + 1 ∉ b → j ≤ m + 1 →
      m + 1 < j + fuel → nextClearAux b j fuel = ((m + 1 : Nat) : Int) := by
  intro fuel
  induction fuel with
  | zero => intro j _ _ h1 h2; omega
  | succ fuel ih =>
      intro j hrun hgap hle hlt
      by_cases hj : j = m + 1
      · subst hj
        simp [nextClearAux, hgap]
      · have hjm : j ≤ m := by omega
        have hjb : j ∈ b := hrun j le_rfl hjm
        simp only [nextClearAux, if_pos hjb]
        exact ih (j + 1) (fun k hk1 hk2 => hrun k (by omega) hk2) hgap
          (by omega) (by omega)

/-- The clear-bit scan is exhausted when every scanned position is set. -/
theorem nextClearAux_exhausted (b : List Nat) :
    ∀ fuel j, (∀ k, j ≤ k → k < j + fuel → k ∈ b) → nextClearAux b j fuel = -1 := by
  intro fuel
  induction fuel with
  | zero => intro j _; rfl
  | succ fuel ih =>
      intro j hall
      have hjb : j ∈ b := hall j le_rfl (by omega)
      simp only [nextClearAux, if_pos hjb]
      exact ih (j + 1) fun k hk1 hk2 => hall k (by omega) (by omega)

/-! ### Buffer-shift lemmas: every walker call appends to its buffer a string
that does not depend on the buffer's prior content. -/

theorem bitmapRunLoop_shift (key : String) (b : List Nat) (size : Nat) :
    ∀ fuel pos buf s, bitmapRunLoop key b size (buf ++ s) pos fuel
      = buf ++ bitmapRunLoop key b size s pos fuel := by
  intro fuel
  induction fuel with
  | zero => intro pos buf s; rfl
  | succ fuel ih =>
      intro pos buf s
      simp only [bitmapRunLoop]
      by_cases hp : virBitmapNextSetBit b pos > -1
      · simp only [if_pos hp]
        by_cases he : (if virBitmapNextClearBit b size (virBitmapNextSetBit b pos) < 0
            then virBitmapLastSetBit b + 1
            else virBitmapNextClearBit b size (virBitmapNextSetBit b pos)) - 1
              > virBitmapNextSetBit b pos
        · simp only [if_pos he, String.append_assoc, ih]
        · simp only [if_neg he, String.append_assoc, ih]
      · simp only [if_neg hp]

theorem bitmapRunLoop_out (key : String) (b : List Nat) (size : Nat)
    (fuel : Nat) (pos : Int) (buf : String) :
    bitmapRunLoop key b size buf pos fuel
      = buf ++ bitmapRunLoop key b size "" pos fuel := by
  have h := bitmapRunLoop_shift key b size fuel pos buf ""
  rwa [String.append_empty] at h

/-- Shift lemma for nested (depth-one) walker calls. -/
theorem recurse_true_shift (key : String) (v : VirJSONValue) (buf : String) :
    virQEMUBuildCommandLineJSONRecurse key v buf true
      = (buf ++ (virQEMUBuildCommandLineJSONRecurse key v "" true).1,
         (virQEMUBuildCommandLineJSONRecurse key v "" true).2) := by
  cases v with
  | vstring s =>
      simp [virQEMUBuildCommandLineJSONRecurse, virQEMUBuildBufferEscapeComma,
        String.append_assoc, String.empty_append]
  | vnumber tok =>
      simp [virQEMUBuildCommandLineJSONRecurse, String.append_assoc,
        String.empty_append]
  | vboolean bv =>
      cases bv <;>
        simp [virQEMUBuildCommandLineJSONRecurse, String.append_assoc,
          String.empty_append]
  | varray elems =>
      simp [virQEMUBuildCommandLineJSONRecurse, String.append_empty]
  | vobject fields =>
      simp [virQEMUBuildCommandLineJSONRecurse, String.append_empty]
  | vnull =>
      simp [virQEMUBuildCommandLineJSONRecurse, String.append_empty]

/-- Shift lemma for the element-by-element array fallback. -/
theorem recurseArray_shift (key : String) (elems : List VirJSONValue)
    (buf : String) :
    virQEMUBuildCommandLineJSONRecurseArray key elems buf
      = (buf ++ (virQEMUBuildCommandLineJSONRecurseArray key elems "").1,
         (virQEMUBuildCommandLineJSONRecurseArray key elems "").2) := by
  induction elems generalizing buf with
  | nil => simp [virQEMUBuildCommandLineJSONRecurseArray, String.append_empty]
  | cons e rest ih =>
      rw [virQEMUBuildCommandLineJSONRecurseArray,
        virQEMUBuildCommandLineJSONRecurseArray]
      rw [recurse_true_shift key e buf, recurse_true_shift key e ""]
      rcases h : (virQEMUBuildCommandLineJSONRecurse key e "" true).2 with _ | err
      · simp only [String.empty_append]
        rw [ih (buf ++ (virQEMUBuildCommandLineJSONRecurse key e "" true).1),
          ih ((virQEMUBuildCommandLineJSONRecurse key e "" true).1)]
        simp [String.append_assoc]
      · simp [String.empty_append]

/-- Shift lemma for every walker call: the walker only ever appends to the
buffer, and what it appends does not depend on prior buffer content. -/
theorem recurse_shift (key : String) (v : VirJSONValue) (nested : Bool)
    (buf : String) :
    virQEMUBuildCommandLineJSONRecurse key v buf nested
      = (buf ++ (virQEMUBuildCommandLineJSONRecurse key v "" nested).1,
         (virQEMUBuildCommandLineJSONRecurse key v "" nested).2) := by
  cases nested with
  | true => exact recurse_true_shift key v buf
  | false =>
      cases v with
      | vstring s =>
          simp [virQEMUBuildCommandLineJSONRecurse, virQEMUBuildBufferEscapeComma,
            String.append_assoc, String.empty_append]
      | vnumber tok =>
          simp [virQEMUBuildCommandLineJSONRecurse, String.append_assoc,
            String.empty_append]
      | vboolean bv =>
          cases bv <;>
            simp [virQEMUBuildCommandLineJSONRecurse, String.append_assoc,
              String.empty_append]
      | varray elems =>
          rw [virQEMUBuildCommandLineJSONRecurse,
            virQEMUBuildCommandLineJSONRecurse]
          rcases hbm : virJSONValueGetArrayAsBitmap elems with _ | bm
          · simp only
            exact recurseArray_shift key elems buf
          · simp only
            rw [bitmapRunLoop_out key bm (bitmapSize bm) (bm.length + 1) (-1) buf]
            simp [String.empty_append]
      | vobject fields =>
          simp [virQEMUBuildCommandLineJSONRecurse, String.append_empty]
      | vnull =>
          simp [virQEMUBuildCommandLineJSONRecurse, String.append_empty]

/-! ### Run-decomposition lemmas -/

theorem takeRun_nil (last : Nat) : takeRun last [] = (last, []) := rfl

theorem takeRun_cons (last n : Nat) (rest : List Nat) :
    takeRun last (n :: rest)
      = if n = last + 1 then takeRun n rest else (last, n :: rest) := rfl

theorem takeRun_length (ts : List Nat) : ∀ last, (takeRun last ts).2.length ≤ ts.length := by
  induction ts with
  | nil => intro last; simp [takeRun_nil]
  | cons n rest ih =>
      intro last
      rw [takeRun_cons]
      by_cases h : n = last + 1
      · rw [if_pos h]
        exact (ih n).trans (by simp)
      · rw [if_neg h]

theorem takeRun_spec (ts : List Nat) : ∀ last, (last :: ts).Pairwise (· < ·) →
    last ≤ (takeRun last ts).1 ∧
    ts = List.range' (last + 1) ((takeRun last ts).1 - last) ++ (takeRun last ts).2 ∧
    ∀ n ∈ (takeRun last ts).2, (takeRun last ts).1 + 1 < n := by
  induction ts with
  | nil =>
      intro last _
      rw [takeRun_nil]
      exact ⟨le_rfl, by simp, by simp⟩
  | cons n rest ih =>
      intro last hpw
      have hlast_lt : ∀ x ∈ n :: rest, last < x := (List.pairwise_cons.mp hpw).1
      have hpw' : (n :: rest).Pairwise (· < ·) := (List.pairwise_cons.mp hpw).2
      rw [takeRun_cons]
      by_cases h : n = last + 1
      · rw [if_pos h]
        subst h
        obtain ⟨h1, h2, h3⟩ := ih (last + 1) hpw'
        refine ⟨by omega, ?_, h3⟩
        have hml : (takeRun (last + 1) rest).1 - last
            = ((takeRun (last + 1) rest).1 - (last + 1)) + 1 := by omega
        rw [hml, List.range'_succ]
        simp only [List.cons_append, List.cons_inj_right]
        exact h2
      · rw [if_neg h]
        have hn : last < n := hlast_lt n (by simp)
        refine ⟨le_rfl, by simp, ?_⟩
        intro x hx
        rcases List.mem_cons.mp hx with he | hx
        · omega
        · have h1 : n < x := (List.pairwise_cons.mp hpw').1 x hx
          omega

theorem runsAux_congr : ∀ f1 f2 (l : List Nat), l.length ≤ f1 → l.length ≤ f2 →
    runsAux f1 l = runsAux f2 l := by
  intro f1
  induction f1 with
  | zero =>
      intro f2 l h1 _
      have : l = [] := List.length_eq_zero.mp (Nat.le_zero.mp h1)
      subst this
      cases f2 <;> rfl
  | succ f1 ih =>
      intro f2 l h1 h2
      cases l with
      | nil => cases f2 <;> rfl
      | cons a ts =>
          cases f2 with
          | zero => simp at h2
          | succ f2 =>
              simp only [runsAux]
              have hlen : (takeRun a ts).2.length ≤ ts.length := takeRun_length ts a
              have := ih f2 (takeRun a ts).2 (by simp at h1; omega) (by simp at h2; omega)
              rw [this]

theorem runs_cons (a : Nat) (ts : List Nat) :
    runs (a :: ts) = (a, (takeRun a ts).1) :: runs (takeRun a ts).2 := by
  have hlen : (takeRun a ts).2.length ≤ ts.length := takeRun_length ts a
  simp only [runs, List.length_cons, runsAux]
  rw [runsAux_congr ts.length (takeRun a ts).2.length (takeRun a ts).2 hlen le_rfl]

theorem le_foldr_max (b : List Nat) : ∀ n ∈ b, n ≤ b.foldr max 0 := by
  induction b with
  | nil => simp
  | cons a rest ih =>
      intro n hn
      rcases List.mem_cons.mp hn with he | hn
      · subst he
        simp only [List.foldr_cons, le_max_iff]
        exact Or.inl le_rfl
      · have := ih n hn
        simp only [List.foldr_cons, le_max_iff]
        exact Or.inr this

/-- The bitmap view delivered by `virJSONValueGetArrayAsBitmap` is a strictly
ascending list. -/
theorem getArrayAsBitmap_sorted (elems : List VirJSONValue) (bm : List Nat)
    (h : virJSONValueGetArrayAsBitmap elems = some bm) :
    bm.Pairwise (· < ·) := by
  rcases hm : elems.mapM virJSONValueToNat with _ | ns
  · simp only [virJSONValueGetArrayAsBitmap, hm] at h
    cases h
  · simp only [virJSONValueGetArrayAsBitmap, hm] at h
    by_cases hd : ns.Nodup
    · rw [if_pos hd] at h
      obtain rfl := Option.some.inj h
      have hsorted : (List.insertionSort (· ≤ ·) ns).Pairwise (· ≤ ·) :=
        List.sorted_insertionSort _ ns
      have hperm : (List.insertionSort (· ≤ ·) ns).Perm ns :=
        List.perm_insertionSort _ ns
      have hnd : (List.insertionSort (· ≤ ·) ns).Nodup := hperm.nodup_iff.mpr hd
      exact (hsorted.and hnd).imp fun hab => lt_of_le_of_ne hab.1 hab.2
    · rw [if_neg hd] at h; cases h

theorem toString_intCast (n : Nat) : toString ((n : Int)) = toString n := rfl

/-- Main characterisation of the run-compression loop: starting anywhere
after the already-emitted prefix `done` of the bitmap, the loop emits exactly
one fragment per maximal run of the remaining suffix `todo`. -/
theorem bitmapRunLoop_runs (key : String) (size : Nat) :
    ∀ (fuel : Nat) (todo done b : List Nat) (pos : Int) (buf : String),
      b = done ++ todo →
      b.Pairwise (· < ·) →
      (∀ n ∈ b, n < size) →
      (∀ n ∈ done, (n : Int) ≤ pos) →
      (∀ n ∈ todo, pos < (n : Int)) →
      todo.length + 1 ≤ fuel →
      bitmapRunLoop key b size buf pos fuel
        = buf ++ sjoin ((runs todo).map (runFragment key)) := by
  intro fuel
  induction fuel with
  | zero =>
      intro todo done b pos buf _ _ _ _ _ hf
      omega
  | succ fuel ih =>
      intro todo done b pos buf hb hpw hsize hdone htodo hf
      cases todo with
      | nil =>
          have hns : virBitmapNextSetBit b pos = -1 := by
            rw [hb]
            exact virBitmapNextSetBit_none _ pos (by simpa using hdone)
          simp only [bitmapRunLoop, hns]
          norm_num
          simp [runs, runsAux, sjoin, String.append_empty]
      | cons t ts =>
          have hpwb := hpw
          rw [hb] at hpwb
          obtain ⟨hpwdone, hpwtail, hcross⟩ := List.pairwise_append.mp hpwb
          have hspec := takeRun_spec ts t hpwtail
          rcases htr : takeRun t ts with ⟨m, ts'⟩
          rw [htr] at hspec
          obtain ⟨htm, hdecomp, hts'⟩ := hspec
          simp only at htm hdecomp hts'
          -- the next set bit is t
          have hp : virBitmapNextSetBit b pos = (t : Int) := by
            rw [hb]
            exact virBitmapNextSetBit_found done t ts pos hdone
              (htodo t (by simp))
          -- membership of the whole first run
          have hmem : ∀ k, t ≤ k → k ≤ m → k ∈ b := by
            intro k hk1 hk2
            rw [hb]
            rcases Nat.eq_or_lt_of_le hk1 with he | hlt
            · subst he; simp
            · have : k ∈ List.range' (t + 1) (m - t) := by
                rw [List.mem_range'_1]
                omega
              have : k ∈ ts := by rw [hdecomp]; exact List.mem_append_left _ this
              simp [this]
          -- the gap after the first run
          have hgap : m + 1 ∉ b := by
            rw [hb]
            intro hmm
            rcases List.mem_append.mp hmm with hin | hin
            · have h1 := hcross (m + 1) hin t (by simp)
              omega
            · rcases List.mem_cons.mp hin with he | hin
              · omega
              · rw [hdecomp] at hin
                rcases List.mem_append.mp hin with hin | hin
                · rw [List.mem_range'_1] at hin
                  omega
                · have := hts' (m + 1) hin
                  omega
          have hmb : m ∈ b := hmem m htm le_rfl
          have hmsize : m < size := hsize m hmb
          have htsize : t < size := hsize t (hmem t le_rfl htm)
          -- the effective end of the first run is m + 1
          have ht1 : (((t : Int)) + 1).toNat = t + 1 := by omega
          have hE : (if virBitmapNextClearBit b size (t : Int) < 0
                then virBitmapLastSetBit b + 1
                else virBitmapNextClearBit b size (t : Int)) = (m : Int) + 1 := by
            by_cases hsz : m + 1 < size
            · have h1 : virBitmapNextClearBit b size (t : Int) = ((m + 1 : Nat) : Int) := by
                unfold virBitmapNextClearBit
                rw [ht1]
                exact nextClearAux_found b m (size - (t + 1)) (t + 1)
                  (fun k hk1 hk2 => hmem k (by omega) hk2) hgap (by omega) (by omega)
              rw [h1]
              rw [if_neg (by push_cast; omega)]
              push_cast
              ring
            · have hsize_eq : size = m + 1 := by omega
              have h1 : virBitmapNextClearBit b size (t : Int) = -1 := by
                unfold virBitmapNextClearBit
                rw [ht1]
                exact nextClearAux_exhausted b (size - (t + 1)) (t + 1)
                  (fun k hk1 hk2 => hmem k (by omega) (by omega))
              rw [h1]
              rw [if_pos (by norm_num)]
              have h2 : virBitmapLastSetBit b = (m : Int) :=
                virBitmapLastSetBit_eq b m hpw hmb
                  (fun n hn => by have := hsize n hn; omega)
              rw [h2]
          -- one unfolding of the loop
          rw [bitmapRunLoop]
          simp only [hp, hE]
          rw [if_pos (show ((t : Int)) > -1 by omega)]
          have hrc := runs_cons t ts
          rw [htr] at hrc
          simp only at hrc
          by_cases hlt : t < m
          · -- range fragment
            rw [if_pos (show ((m : Int)) + 1 - 1 > (t : Int) by omega)]
            rw [show ((m : Int) + 1 - 1) = ((m : Nat) : Int) by omega]
            rw [ih ts' (done ++ t :: List.range' (t + 1) (m - t)) b ((m : Int) + 1)
                (buf ++ "," ++ key ++ "=" ++ toString ((t : Int)) ++ "-"
                  ++ toString ((m : Nat) : Int))
                (by rw [hb, hdecomp]; simp)
                hpw hsize
                (by
                  intro n hn
                  rcases List.mem_append.mp hn with hin | hin
                  · have h1 := hdone n hin
                    have h2 := htodo t (by simp)
                    omega
                  · rcases List.mem_cons.mp hin with he | hin
                    · subst he; omega
                    · rw [List.mem_range'_1] at hin
                      omega)
                (by
                  intro n hn
                  have := hts' n hn
                  omega)
                (by
                  have h1 : ts.length = (m - t) + ts'.length := by
                    rw [hdecomp]
                    simp [List.length_range']
                  simp only [List.length_cons] at hf
                  omega)]
            rw [hrc]
            simp only [List.map_cons, sjoin]
            rw [runFragment, if_pos (show ((t : Nat), (m : Nat)).1 < (t, m).2 from hlt)]
            simp only [toString_intCast]
            simp [String.append_assoc]
          · -- singleton fragment: the run is just t, i.e. m = t
            have hmt : m = t := by omega
            subst hmt
            rw [if_neg (show ¬(((m : Int)) + 1 - 1 > (m : Int)) by omega)]
            have hts_eq : ts = ts' := by simpa using hdecomp
            rw [ih ts' (done ++ [m]) b ((m : Int))
                (buf ++ "," ++ key ++ "=" ++ toString ((m : Int)))
                (by rw [hb, hts_eq]; simp)
                hpw hsize
                (by
                  intro n hn
                  rcases List.mem_append.mp hn with hin | hin
                  · have h1 := hdone n hin
                    have h2 := htodo m (by simp)
                    omega
                  · have hnm : n = m := by simpa using hin
                    omega)
                (by
                  intro n hn
                  have := hts' n hn
                  omega)
                (by
                  simp only [List.length_cons] at hf
                  rw [hts_eq] at hf
                  omega)]
            rw [hrc]
            simp only [List.map_cons, sjoin]
            rw [runFragment, if_neg (show ¬((m, m).1 < (m, m).2) by simp)]
            simp only [toString_intCast]
            simp [String.append_assoc]

/-- A sorted bitmap's run loop, started from `pos = -1` with the fuel the
walker supplies, emits exactly the maximal-run fragments. -/
theorem bitmapRunLoop_complete (key : String) (bm : List Nat) (buf : String)
    (hpw : bm.Pairwise (· < ·)) :
    bitmapRunLoop key bm (bitmapSize bm) buf (-1) (bm.length + 1)
      = buf ++ sjoin ((runs bm).map (runFragment key)) := by
  refine bitmapRunLoop_runs key (bitmapSize bm) (bm.length + 1) bm [] bm (-1) buf
    rfl hpw ?_ (by simp) ?_ le_rfl
  · intro n hn
    have := le_foldr_max bm n hn
    unfold bitmapSize
    omega
  · intro n _
    have : (0 : Int) ≤ (n : Int) := Int.natCast_nonneg n
    omega

/-- The walker's bitmap branch: a bitmap-representable array produces the
maximal-run fragments, in order, and succeeds. -/
theorem recurse_bitmap (key : String) (elems : List VirJSONValue)
    (bm : List Nat) (buf : String)
    (h : virJSONValueGetArrayAsBitmap elems = some bm) :
    virQEMUBuildCommandLineJSONRecurse key (.varray elems) buf false
      = (buf ++ sjoin ((runs bm).map (runFragment key)), none) := by
  rw [virQEMUBuildCommandLineJSONRecurse]
  simp only [h, Bool.false_eq_true, if_false]
  rw [bitmapRunLoop_complete key bm buf (getArrayAsBitmap_sorted elems bm h)]

/-! ### Structural properties of the run decomposition -/

theorem runs_nil : runs [] = [] := rfl

/-- Strong-induction helper: every property of `runs` provable from the
first-run decomposition.  Here: all runs are well-formed (`first ≤ last`),
their members lie in the list, and the first components are members. -/
theorem runs_wf : ∀ (N : Nat) (l : List Nat), l.length ≤ N →
    l.Pairwise (· < ·) →
    ∀ r ∈ runs l, r.1 ≤ r.2 ∧ (∀ k, r.1 ≤ k → k ≤ r.2 → k ∈ l) := by
  intro N
  induction N with
  | zero =>
      intro l hl _
      have : l = [] := List.length_eq_zero.mp (Nat.le_zero.mp hl)
      subst this
      simp [runs_nil]
  | succ N ih =>
      intro l hl hpw
      cases l with
      | nil => simp [runs_nil]
      | cons t ts =>
          have hpwtail : (t :: ts).Pairwise (· < ·) := hpw
          have hspec := takeRun_spec ts t hpwtail
          rcases htr : takeRun t ts with ⟨m, ts'⟩
          rw [htr] at hspec
          obtain ⟨htm, hdecomp, hts'⟩ := hspec
          simp only at htm hdecomp hts'
          have hrc := runs_cons t ts
          rw [htr] at hrc
          simp only at hrc
          rw [hrc]
          intro r hr
          rcases List.mem_cons.mp hr with he | hr
          · subst he
            refine ⟨htm, ?_⟩
            intro k hk1 hk2
            simp only at hk1 hk2
            rcases Nat.eq_or_lt_of_le hk1 with he | hlt
            · simp [← he]
            · have : k ∈ List.range' (t + 1) (m - t) := by
                rw [List.mem_range'_1]
                omega
              have : k ∈ ts := by
                rw [hdecomp]
                exact List.mem_append_left _ this
              simp [this]
          · have hlen : ts'.length ≤ N := by
              have h1 := takeRun_length ts t
              rw [htr] at h1
              simp only at h1
              simp only [List.length_cons] at hl
              omega
            have hpw' : ts'.Pairwise (· < ·) := by
              have h1 : ts.Pairwise (· < ·) := hpw.of_cons
              rw [hdecomp] at h1
              exact (List.pairwise_append.mp h1).2.1
            obtain ⟨h1, h2⟩ := ih ts' hlen hpw' r hr
            refine ⟨h1, ?_⟩
            intro k hk1 hk2
            have : k ∈ ts' := h2 k hk1 hk2
            have : k ∈ ts := by
              rw [hdecomp]
              exact List.mem_append_right _ this
            simp [this]

/-- Every member of a sorted list is covered by some run, and conversely. -/
theorem runs_cover : ∀ (N : Nat) (l : List Nat), l.length ≤ N →
    l.Pairwise (· < ·) →
    ∀ n, n ∈ l ↔ ∃ r ∈ runs l, r.1 ≤ n ∧ n ≤ r.2 := by
  intro N
  induction N with
  | zero =>
      intro l hl _
      have : l = [] := List.length_eq_zero.mp (Nat.le_zero.mp hl)
      subst this
      simp [runs_nil]
  | succ N ih =>
      intro l hl hpw
      cases l with
      | nil => simp [runs_nil]
      | cons t ts =>
          have hspec := takeRun_spec ts t hpw
          rcases htr : takeRun t ts with ⟨m, ts'⟩
          rw [htr] at hspec
          obtain ⟨htm, hdecomp, hts'⟩ := hspec
          simp only at htm hdecomp hts'
          have hrc := runs_cons t ts
          rw [htr] at hrc
          simp only at hrc
          rw [hrc]
          have hlen : ts'.length ≤ N := by
            have h1 := takeRun_length ts t
            rw [htr] at h1
            simp only at h1
            simp only [List.length_cons] at hl
            omega
          have hpw' : ts'.Pairwise (· < ·) := by
            have h1 : ts.Pairwise (· < ·) := hpw.of_cons
            rw [hdecomp] at h1
            exact (List.pairwise_append.mp h1).2.1
          intro n
          constructor
          · intro hn
            rcases List.mem_cons.mp hn with he | hn
            · exact ⟨(t, m), by simp, by simp [he], by simp [he, htm]⟩
            · rw [hdecomp] at hn
              rcases List.mem_append.mp hn with hin | hin
              · rw [List.mem_range'_1] at hin
                exact ⟨(t, m), by simp, by simp; omega, by simp; omega⟩
              · obtain ⟨r, hr1, hr2, hr3⟩ := ((ih ts' hlen hpw' n).mp hin)
                exact ⟨r, List.mem_cons_of_mem _ hr1, hr2, hr3⟩
          · rintro ⟨r, hr1, hr2, hr3⟩
            rcases List.mem_cons.mp hr1 with he | hr
            · subst he
              simp only at hr2 hr3
              rcases Nat.eq_or_lt_of_le hr2 with he | hlt
              · simp [← he]
              · have : n ∈ List.range' (t + 1) (m - t) := by
                  rw [List.mem_range'_1]
                  omega
                have : n ∈ ts := by
                  rw [hdecomp]
                  exact List.mem_append_left _ this
                simp [this]
            · have : n ∈ ts' := (ih ts' hlen hpw' n).mpr ⟨r, hr, hr2, hr3⟩
              have : n ∈ ts := by
                rw [hdecomp]
                exact List.mem_append_right _ this
              simp [this]

/-- Adjacent emitted runs are separated by a gap of at least one missing
integer, so no two adjacent fragments could be merged into one range. -/
theorem runs_gap : ∀ (N : Nat) (l : List Nat), l.length ≤ N →
    l.Pairwise (· < ·) →
    (runs l).Pairwise (fun r s => r.2 + 1 < s.1) := by
  intro N
  induction N with
  | zero =>
      intro l hl _
      have : l = [] := List.length_eq_zero.mp (Nat.le_zero.mp hl)
      subst this
      simp [runs_nil]
  | succ N ih =>
      intro l hl hpw
      cases l with
      | nil => simp [runs_nil]
      | cons t ts =>
          have hspec := takeRun_spec ts t hpw
          rcases htr : takeRun t ts with ⟨m, ts'⟩
          rw [htr] at hspec
          obtain ⟨htm, hdecomp, hts'⟩ := hspec
          simp only at htm hdecomp hts'
          have hrc := runs_cons t ts
          rw [htr] at hrc
          simp only at hrc
          rw [hrc]
          have hlen : ts'.length ≤ N := by
            have h1 := takeRun_length ts t
            rw [htr] at h1
            simp only at h1
            simp only [List.length_cons] at hl
            omega
          have hpw' : ts'.Pairwise (· < ·) := by
            have h1 : ts.Pairwise (· < ·) := hpw.of_cons
            rw [hdecomp] at h1
            exact (List.pairwise_append.mp h1).2.1
          refine List.pairwise_cons.mpr ⟨?_, ih ts' hlen hpw'⟩
          intro s hs
          have hs1 : s.1 ∈ ts' := by
            obtain ⟨h1, h2⟩ := runs_wf ts'.length ts' le_rfl hpw' s hs
            exact h2 s.1 le_rfl h1
          have := hts' s.1 hs1
          simpa using this

/-- No two distinct runs can cover the same integer. -/
theorem runs_unique (l : List Nat) (hpw : l.Pairwise (· < ·)) (n : Nat)
    (hn : n ∈ l) : ∃! r : Nat × Nat, r ∈ runs l ∧ r.1 ≤ n ∧ n ≤ r.2 := by
  obtain ⟨r, hr1, hr2, hr3⟩ := (runs_cover l.length l le_rfl hpw n).mp hn
  refine ⟨r, ⟨hr1, hr2, hr3⟩, ?_⟩
  rintro s ⟨hs1, hs2, hs3⟩
  by_contra hne
  have hgap := runs_gap l.length l le_rfl hpw
  have hsym : (runs l).Pairwise
      (fun r s => r.2 + 1 < s.1 ∨ s.2 + 1 < r.1) :=
    hgap.imp fun h => Or.inl h
  have := hsym.forall (fun a b h => h.symm) hs1 hr1 hne
  rcases this with h | h
  · omega
  · omega

/-- Minimality engine: any list of intervals whose members all lie in the
list `done ++ todo` and which jointly cover `todo` has at least as many
intervals as `todo` has maximal runs. -/
theorem runs_min_aux : ∀ (N : Nat) (todo done : List Nat)
    (cover : List (Nat × Nat)),
    todo.length ≤ N →
    (done ++ todo).Pairwise (· < ·) →
    (∀ n ∈ todo, ∃ c ∈ cover, c.1 ≤ n ∧ n ≤ c.2) →
    (∀ c ∈ cover, ∀ k, c.1 ≤ k → k ≤ c.2 → k ∈ done ++ todo) →
    (runs todo).length ≤ cover.length := by
  intro N
  induction N with
  | zero =>
      intro todo done cover hl _ _ _
      have : todo = [] := List.length_eq_zero.mp (Nat.le_zero.mp hl)
      subst this
      simp [runs_nil]
  | succ N ih =>
      intro todo done cover hl hpw hcov hsub
      cases todo with
      | nil => simp [runs_nil]
      | cons t ts =>
          obtain ⟨hpwdone, hpwtail, hcross⟩ := List.pairwise_append.mp hpw
          have hspec := takeRun_spec ts t hpwtail
          rcases htr : takeRun t ts with ⟨m, ts'⟩
          rw [htr] at hspec
          obtain ⟨htm, hdecomp, hts'⟩ := hspec
          simp only at htm hdecomp hts'
          have hrc := runs_cons t ts
          rw [htr] at hrc
          simp only at hrc
          -- the gap after the first run is not in the whole list
          have hgapS : m + 1 ∉ done ++ t :: ts := by
            intro hmm
            rcases List.mem_append.mp hmm with hin | hin
            · have h1 := hcross (m + 1) hin t (by simp)
              omega
            · rcases List.mem_cons.mp hin with he | hin
              · omega
              · rw [hdecomp] at hin
                rcases List.mem_append.mp hin with hin | hin
                · rw [List.mem_range'_1] at hin
                  omega
                · have := hts' (m + 1) hin
                  omega
          -- some interval covers t
          obtain ⟨c, hc_mem, hc1, hc2⟩ := hcov t (by simp)
          -- that interval cannot reach past the end of the first run
          have hc_top : c.2 ≤ m := by
            by_contra hgt
            have h1 : m + 1 ∈ done ++ t :: ts :=
              hsub c hc_mem (m + 1) (by omega) (by omega)
            exact hgapS h1
          -- apply the induction hypothesis to the remaining suffix
          have hlen : ts'.length ≤ N := by
            have h1 := takeRun_length ts t
            rw [htr] at h1
            simp only at h1
            simp only [List.length_cons] at hl
            omega
          have hSeq : (done ++ t :: List.range' (t + 1) (m - t)) ++ ts'
              = done ++ t :: ts := by
            rw [hdecomp]
            simp
          have hstep := ih ts' (done ++ t :: List.range' (t + 1) (m - t))
            (cover.erase c) hlen
            (by rw [hSeq]; exact hpw)
            (by
              intro n hn
              obtain ⟨c', hc'_mem, hc'1, hc'2⟩ := hcov n
                (by
                  have h1 : n ∈ ts := by
                    rw [hdecomp]
                    exact List.mem_append_right _ hn
                  simp [h1])
              have hnm : m + 1 < n := hts' n hn
              have hne : c' ≠ c := by
                intro he
                subst he
                omega
              exact ⟨c', (List.mem_erase_of_ne hne).mpr hc'_mem, hc'1, hc'2⟩)
            (by
              intro c'' hc'' k hk1 hk2
              rw [hSeq]
              exact hsub c'' (List.mem_of_mem_erase hc'') k hk1 hk2)
          have hlen_erase : (cover.erase c).length = cover.length - 1 :=
            List.length_erase_of_mem hc_mem
          have hpos : 1 ≤ cover.length := List.length_pos.mpr
            (List.ne_nil_of_mem hc_mem)
          rw [hrc]
          simp only [List.length_cons]
          omega

/-! ### Walker lemmas for the fallback path and the object iteration -/

/-- A nested (depth-one) walker call succeeds exactly on scalar values. -/
theorem recurse_true_ok (key : String) (v : VirJSONValue) (buf : String) :
    (virQEMUBuildCommandLineJSONRecurse key v buf true).2 = none
      ↔ isScalar v = true := by
  cases v with
  | vstring s => simp [virQEMUBuildCommandLineJSONRecurse, isScalar]
  | vnumber tok => simp [virQEMUBuildCommandLineJSONRecurse, isScalar]
  | vboolean bv => cases bv <;> simp [virQEMUBuildCommandLineJSONRecurse, isScalar]
  | varray elems => simp [virQEMUBuildCommandLineJSONRecurse, isScalar]
  | vobject fields => simp [virQEMUBuildCommandLineJSONRecurse, isScalar]
  | vnull => simp [virQEMUBuildCommandLineJSONRecurse, isScalar]

/-- Every successful nested call appends a single `,<key>=` fragment. -/
theorem recurse_true_fragment (key : String) (v : VirJSONValue)
    (h : isScalar v = true) :
    ∃ t, (virQEMUBuildCommandLineJSONRecurse key v "" true).1
      = "," ++ key ++ "=" ++ t := by
  cases v with
  | vstring s =>
      refine ⟨escapeCommaChars s.data, ?_⟩
      simp [virQEMUBuildCommandLineJSONRecurse, virQEMUBuildBufferEscapeComma,
        String.empty_append, String.append_assoc]
  | vnumber tok =>
      exact ⟨tok, by simp [virQEMUBuildCommandLineJSONRecurse, String.empty_append]⟩
  | vboolean bv =>
      cases bv
      · refine ⟨"no", ?_⟩
        rw [String.append_assoc ("," ++ key) "=" "no",
          show ("=" : String) ++ "no" = "=no" from rfl]
        simp [virQEMUBuildCommandLineJSONRecurse, String.empty_append]
      · refine ⟨"yes", ?_⟩
        rw [String.append_assoc ("," ++ key) "=" "yes",
          show ("=" : String) ++ "yes" = "=yes" from rfl]
        simp [virQEMUBuildCommandLineJSONRecurse, String.empty_append]
  | varray elems => simp [isScalar] at h
  | vobject fields => simp [isScalar] at h
  | vnull => simp [isScalar] at h

/-- The fallback loop on all-scalar elements: one fragment per element, in
order, and success. -/
theorem recurseArray_ok (key : String) (elems : List VirJSONValue)
    (buf : String)
    (h : ∀ e ∈ elems, (virQEMUBuildCommandLineJSONRecurse key e "" true).2 = none) :
    virQEMUBuildCommandLineJSONRecurseArray key elems buf
      = (buf ++ sjoin (elems.map
          fun e => (virQEMUBuildCommandLineJSONRecurse key e "" true).1), none) := by
  induction elems generalizing buf with
  | nil => simp [virQEMUBuildCommandLineJSONRecurseArray, sjoin, String.append_empty]
  | cons e rest ih =>
      rw [virQEMUBuildCommandLineJSONRecurseArray]
      rw [recurse_true_shift key e buf]
      rw [h e (by simp)]
      show virQEMUBuildCommandLineJSONRecurseArray key rest
          (buf ++ (virQEMUBuildCommandLineJSONRecurse key e "" true).1) = _
      rw [ih _ (fun x hx => h x (by simp [hx]))]
      simp [sjoin, String.append_assoc]

/-- The fallback loop stops at the first failing element, keeping the
fragments of the preceding elements and propagating the element's error
unchanged. -/
theorem recurseArray_stops (key : String) (pre : List VirJSONValue)
    (e : VirJSONValue) (post : List VirJSONValue) (buf : String)
    (err : VirError)
    (hpre : ∀ x ∈ pre, (virQEMUBuildCommandLineJSONRecurse key x "" true).2 = none)
    (he : (virQEMUBuildCommandLineJSONRecurse key e "" true).2 = some err) :
    virQEMUBuildCommandLineJSONRecurseArray key (pre ++ e :: post) buf
      = (buf ++ sjoin (pre.map
            fun x => (virQEMUBuildCommandLineJSONRecurse key x "" true).1)
          ++ (virQEMUBuildCommandLineJSONRecurse key e "" true).1, some err) := by
  induction pre generalizing buf with
  | nil =>
      simp only [List.nil_append]
      rw [virQEMUBuildCommandLineJSONRecurseArray]
      rw [recurse_true_shift key e buf, he]
      simp [sjoin, String.append_assoc, String.empty_append, String.append_empty]
  | cons x rest ih =>
      simp only [List.cons_append]
      rw [virQEMUBuildCommandLineJSONRecurseArray]
      rw [recurse_true_shift key x buf]
      rw [hpre x (by simp)]
      show virQEMUBuildCommandLineJSONRecurseArray key (rest ++ e :: post)
          (buf ++ (virQEMUBuildCommandLineJSONRecurse key x "" true).1) = _
      rw [ih _ (fun y hy => hpre y (by simp [hy]))]
      simp [sjoin, String.append_assoc]

/-- The fallback loop succeeds exactly when every element is a scalar. -/
theorem recurseArray_ok_iff (key : String) (elems : List VirJSONValue)
    (buf : String) :
    (virQEMUBuildCommandLineJSONRecurseArray key elems buf).2 = none
      ↔ elems.all isScalar = true := by
  induction elems generalizing buf with
  | nil => simp [virQEMUBuildCommandLineJSONRecurseArray]
  | cons e rest ih =>
      rw [virQEMUBuildCommandLineJSONRecurseArray]
      rw [recurse_true_shift key e buf]
      rcases hse : (virQEMUBuildCommandLineJSONRecurse key e "" true).2 with _ | err
      · have hsc : isScalar e = true := (recurse_true_ok key e "").mp hse
        simp only [List.all_cons, hsc, Bool.true_and]
        exact ih _
      · have hsc : ¬ isScalar e = true := by
          intro hc
          rw [(recurse_true_ok key e "").mpr hc] at hse
          cases hse
        simp [hsc]

/-- Iterating the walker over object fields that all encode successfully:
the output is one walker fragment per key/value pair, in order. -/
theorem foreachPairs_ok (fields : List (String × VirJSONValue)) (buf : String)
    (h : ∀ kv ∈ fields,
      (virQEMUBuildCommandLineJSONRecurse kv.1 kv.2 "" false).2 = none) :
    foreachPairs virQEMUBuildCommandLineJSONIterate fields buf
      = (buf ++ sjoin (fields.map
          fun kv => (virQEMUBuildCommandLineJSONRecurse kv.1 kv.2 "" false).1),
         none) := by
  induction fields generalizing buf with
  | nil => simp [foreachPairs, sjoin, String.append_empty]
  | cons kv rest ih =>
      rcases kv with ⟨k, v⟩
      rw [foreachPairs]
      show (match virQEMUBuildCommandLineJSONRecurse k v buf false with
        | (buf2, none) => foreachPairs virQEMUBuildCommandLineJSONIterate rest buf2
        | (buf2, some err) => (buf2, some err)) = _
      rw [recurse_shift k v false buf]
      rw [h (k, v) (by simp)]
      show foreachPairs virQEMUBuildCommandLineJSONIterate rest
          (buf ++ (virQEMUBuildCommandLineJSONRecurse k v "" false).1) = _
      rw [ih _ (fun x hx => h x (by simp [hx]))]
      simp [sjoin, String.append_assoc]

/-- A successful iteration prefix continues into the remaining fields from
the buffer it produced. -/
theorem foreachPairs_append
    (cb : String → VirJSONValue → String → String × Option VirError)
    (l1 l2 : List (String × VirJSONValue)) (buf buf2 : String)
    (h : foreachPairs cb l1 buf = (buf2, none)) :
    foreachPairs cb (l1 ++ l2) buf = foreachPairs cb l2 buf2 := by
  induction l1 generalizing buf with
  | nil =>
      simp only [foreachPairs] at h
      injection h with h1 h2
      subst h1
      simp
  | cons kv rest ih =>
      rcases kv with ⟨k, v⟩
      rw [foreachPairs] at h
      rw [List.cons_append, foreachPairs]
      rcases hcb : cb k v buf with ⟨b2, e2⟩
      rw [hcb] at h
      cases e2 with
      | none => exact ih b2 h
      | some err => simp at h

/-- A top-level (`nested = false`) walker call succeeds exactly on the values
accepted by `encodeOk`. -/
theorem recurse_false_ok (key : String) (v : VirJSONValue) (buf : String) :
    (virQEMUBuildCommandLineJSONRecurse key v buf false).2 = none
      ↔ encodeOk v = true := by
  cases v with
  | vstring s => simp [virQEMUBuildCommandLineJSONRecurse, encodeOk]
  | vnumber tok => simp [virQEMUBuildCommandLineJSONRecurse, encodeOk]
  | vboolean bv => cases bv <;> simp [virQEMUBuildCommandLineJSONRecurse, encodeOk]
  | varray elems =>
      rw [virQEMUBuildCommandLineJSONRecurse]
      rcases hbm : virJSONValueGetArrayAsBitmap elems with _ | bm
      · simp only [Bool.false_eq_true, if_false]
        rw [recurseArray_ok_iff key elems buf]
        simp [encodeOk, hbm]
      · simp [encodeOk, hbm]
  | vobject fields => simp [virQEMUBuildCommandLineJSONRecurse, encodeOk]
  | vnull => simp [virQEMUBuildCommandLineJSONRecurse, encodeOk]

/-! ### Claim theorems -/

/-- C1: for every array value representable as a bitmap, the walker emits one
fragment per maximal run of consecutive integers, in ascending order of the
run's first element — a singleton run as `,<key>=<n>`, a longer run as
`,<key>=<first>-<last>`; in particular the ascending array
`[0,1,2,5,7,8,9]` under key `cpus` appends exactly
`,cpus=0-2,cpus=5,cpus=7-9`. -/
theorem c1_bitmap_run_fragments :
    (∀ (key : String) (elems : List VirJSONValue) (bm : List Nat) (buf : String),
      virJSONValueGetArrayAsBitmap elems = some bm →
      virQEMUBuildCommandLineJSONRecurse key (.varray elems) buf false
        = (buf ++ sjoin ((runs bm).map (runFragment key)), none))
    ∧ virQEMUBuildCommandLineJSONRecurse "cpus"
        (.varray [.vnumber "0", .vnumber "1", .vnumber "2", .vnumber "5",
                  .vnumber "7", .vnumber "8", .vnumber "9"]) "" false
        = (",cpus=0-2,cpus=5,cpus=7-9", none) :=
  ⟨fun key elems bm buf h => recurse_bitmap key elems bm buf h, rfl⟩

/-- Witness for C1: the bitmap-representable array `[0,2]` under key `c`
produces the fragments of its two singleton runs. -/
theorem c1_bitmap_run_fragments_witness :
    virJSONValueGetArrayAsBitmap [.vnumber "0", .vnumber "2"] = some [0, 2]
    ∧ virQEMUBuildCommandLineJSONRecurse "c"
        (.varray [.vnumber "0", .vnumber "2"]) "" false
        = ("" ++ sjoin ((runs [0, 2]).map (runFragment "c")), none) :=
  ⟨rfl, c1_bitmap_run_fragments.1 "c" [.vnumber "0", .vnumber "2"] [0, 2] "" rfl⟩

/-- C2: for every type, alias and props object whose values all encode
successfully, the assembler returns `<type>,id=<alias>` followed by the
walker's fragment for each key/value pair, in iteration order; in particular
`buildObjectArg("secret","sec0",{"data":"abc,def"})` returns
`secret,id=sec0,data=abc,,def`. -/
theorem c2_object_assembler :
    (∀ (ty aliasStr : String) (fields : List (String × VirJSONValue)),
      (∀ kv ∈ fields,
        (virQEMUBuildCommandLineJSONRecurse kv.1 kv.2 "" false).2 = none) →
      virQEMUBuildObjectCommandlineFromJSON ty aliasStr (.vobject fields)
        = some (ty ++ ",id=" ++ aliasStr ++ sjoin (fields.map
            fun kv => (virQEMUBuildCommandLineJSONRecurse kv.1 kv.2 "" false).1)))
    ∧ virQEMUBuildObjectCommandlineFromJSON "secret" "sec0"
        (.vobject [("data", .vstring "abc,def")])
        = some "secret,id=sec0,data=abc,,def" := by
  constructor
  · intro ty a fields h
    simp only [virQEMUBuildObjectCommandlineFromJSON, virQEMUBuildCommandLineJSON,
      virJSONValueObjectForeachKeyValue]
    rw [foreachPairs_ok fields (ty ++ ",id=" ++ a) h]
  · rfl

/-- Witness for C2: the assembler on the concrete props object of the claim,
with the all-values-encode hypothesis discharged by evaluation. -/
theorem c2_object_assembler_witness :
    virQEMUBuildObjectCommandlineFromJSON "secret" "sec0"
        (.vobject [("data", .vstring "abc,def")])
      = some ("secret" ++ ",id=" ++ "sec0"
          ++ sjoin ([(("data" : String), VirJSONValue.vstring "abc,def")].map
            fun kv => (virQEMUBuildCommandLineJSONRecurse kv.1 kv.2 "" false).1)) :=
  c2_object_assembler.1 "secret" "sec0" [("data", .vstring "abc,def")]
    (by decide)

/-- C3: `buildLuksOpts` always appends `key-secret=<alias>,` first; with the
cipher name absent it appends nothing further even when size, mode or hash
are set; with the cipher name present it appends
`cipher-alg=<escaped name>-<size>,`, then `cipher-mode=` only when the mode
is present, then `hash-alg=` only when the cipher hash is present; the ivgen
hash is emitted only when the ivgen name is present.  With cipher name
`aes`, size 256 and everything else absent, the output for alias `sec0` is
`key-secret=sec0,cipher-alg=aes-256,`. -/
theorem c3_luks_dependency_chain :
    (∀ (buf : String) (enc : virStorageEncryptionInfoDef) (aliasStr : String),
      virQEMUBuildLuksOpts buf enc aliasStr = buf ++ luksOptsSpec enc aliasStr)
    ∧ (∀ (buf aliasStr : String) (sz : Nat) (cm ch ivn ivh : Option String),
      virQEMUBuildLuksOpts buf ⟨none, sz, cm, ch, ivn, ivh⟩ aliasStr
        = buf ++ "key-secret=" ++ aliasStr ++ ",")
    ∧ virQEMUBuildLuksOpts "" ⟨some "aes", 256, none, none, none, none⟩ "sec0"
        = "key-secret=sec0,cipher-alg=aes-256," := by
  refine ⟨?_, ?_, rfl⟩
  · intro buf enc a
    rcases enc with ⟨cn, sz, cm, ch, ivn, ivh⟩
    cases cn <;> cases cm <;> cases ch <;> cases ivn <;> cases ivh <;>
      simp only [virQEMUBuildLuksOpts, luksOptsSpec, optLuksField,
        virQEMUBuildBufferEscapeComma, String.append_assoc, String.append_empty]
  · intro buf a sz cm ch ivn ivh
    simp only [virQEMUBuildLuksOpts, String.append_assoc]

/-- C4: the comma escaper appends a copy of the string in which every
literal `','` is doubled and every other character is unchanged; hence the
string value `a,b` under key `k` appends exactly `,k=a,,b`. -/
theorem c4_comma_escaper :
    (∀ buf str : String, virQEMUBuildBufferEscapeComma buf str
      = buf ++ sjoin (str.data.map
          fun c => if c = ',' then ",," else String.singleton c))
    ∧ virQEMUBuildCommandLineJSONRecurse "k" (.vstring "a,b") "" false
        = (",k=a,,b", none) :=
  ⟨fun buf str => by
      rw [virQEMUBuildBufferEscapeComma_append, escapeCommaChars_eq_sjoin],
   rfl⟩

/-- C5: encoding an Object or Null value fails with the unsupported-type
error at any position and with any nesting flag, the failing call appending
nothing, while fragments already appended for prior sibling keys remain in
the buffer. -/
theorem c5_object_null_unsupported :
    (∀ (key buf : String) (nested : Bool),
      virQEMUBuildCommandLineJSONRecurse key .vnull buf nested
        = (buf, some .unsupportedType))
    ∧ (∀ (key : String) (fields : List (String × VirJSONValue)) (buf : String)
        (nested : Bool),
      virQEMUBuildCommandLineJSONRecurse key (.vobject fields) buf nested
        = (buf, some .unsupportedType))
    ∧ (∀ (fields post : List (String × VirJSONValue)) (k buf buf2 : String),
      virQEMUBuildCommandLineJSON (.vobject fields) buf = (buf2, none) →
      virQEMUBuildCommandLineJSON (.vobject (fields ++ (k, .vnull) :: post)) buf
        = (buf2, some .unsupportedType)) := by
  refine ⟨?_, ?_, ?_⟩
  · intro key buf nested
    rw [virQEMUBuildCommandLineJSONRecurse]
  · intro key fields buf nested
    rw [virQEMUBuildCommandLineJSONRecurse]
  · intro fields post k buf buf2 h
    simp only [virQEMUBuildCommandLineJSON, virJSONValueObjectForeachKeyValue] at h ⊢
    rw [foreachPairs_append virQEMUBuildCommandLineJSONIterate fields
      ((k, .vnull) :: post) buf buf2 h]
    rw [foreachPairs]
    rfl

/-- Witness for C5: after a successful first key, a null-valued second key
fails while the first key's fragment stays in the buffer. -/
theorem c5_object_null_unsupported_witness :
    virQEMUBuildCommandLineJSON (.vobject [("a", .vnumber "1")]) "" = (",a=1", none)
    ∧ virQEMUBuildCommandLineJSON
        (.vobject [("a", .vnumber "1"), ("b", .vnull)]) ""
        = (",a=1", some .unsupportedType) :=
  ⟨rfl, c5_object_null_unsupported.2.2 [("a", .vnumber "1")] [] "b" "" ",a=1" rfl⟩

/-- C6: a walker call on an Array with the nested flag set fails with the
unsupported-nesting error and appends nothing; hence an array appearing as
an element of another array's per-element expansion fails that way. -/
theorem c6_nested_array_unsupported :
    (∀ (key : String) (elems : List VirJSONValue) (buf : String),
      virQEMUBuildCommandLineJSONRecurse key (.varray elems) buf true
        = (buf, some .unsupportedNesting))
    ∧ (∀ (key : String) (inner post : List VirJSONValue) (buf : String),
      virQEMUBuildCommandLineJSONRecurse key (.varray (.varray inner :: post))
          buf false
        = (buf, some .unsupportedNesting)) := by
  constructor
  · intro key elems buf
    rw [virQEMUBuildCommandLineJSONRecurse]
    rfl
  · intro key inner post buf
    rw [virQEMUBuildCommandLineJSONRecurse]
    have hbm : virJSONValueGetArrayAsBitmap (.varray inner :: post) = none := rfl
    simp only [hbm, Bool.false_eq_true, if_false]
    rw [virQEMUBuildCommandLineJSONRecurseArray]
    rw [show virQEMUBuildCommandLineJSONRecurse key (.varray inner) buf true
        = (buf, some .unsupportedNesting) from by
      rw [virQEMUBuildCommandLineJSONRecurse]; rfl]

/-- C7: for a non-nested array whose bitmap construction fails, the walker
encodes the elements in order with `nested = true`, one `,<key>=` fragment
per element, stopping at the first failing element and propagating its error
unchanged. -/
theorem c7_fallback_per_element :
    (∀ (key : String) (elems : List VirJSONValue) (buf : String),
      virJSONValueGetArrayAsBitmap elems = none →
      (∀ e ∈ elems,
        (virQEMUBuildCommandLineJSONRecurse key e "" true).2 = none) →
      virQEMUBuildCommandLineJSONRecurse key (.varray elems) buf false
        = (buf ++ sjoin (elems.map
            fun e => (virQEMUBuildCommandLineJSONRecurse key e "" true).1),
           none))
    ∧ (∀ (key : String) (pre : List VirJSONValue) (e : VirJSONValue)
        (post : List VirJSONValue) (buf : String) (err : VirError),
      virJSONValueGetArrayAsBitmap (pre ++ e :: post) = none →
      (∀ x ∈ pre,
        (virQEMUBuildCommandLineJSONRecurse key x "" true).2 = none) →
      (virQEMUBuildCommandLineJSONRecurse key e "" true).2 = some err →
      virQEMUBuildCommandLineJSONRecurse key (.varray (pre ++ e :: post)) buf false
        = (buf ++ sjoin (pre.map
              fun x => (virQEMUBuildCommandLineJSONRecurse key x "" true).1)
            ++ (virQEMUBuildCommandLineJSONRecurse key e "" true).1, some err))
    ∧ (∀ (key : String) (v : VirJSONValue), isScalar v = true →
      ∃ t, (virQEMUBuildCommandLineJSONRecurse key v "" true).1
        = "," ++ key ++ "=" ++ t) := by
  refine ⟨?_, ?_, fun key v h => recurse_true_fragment key v h⟩
  · intro key elems buf hbm h
    rw [virQEMUBuildCommandLineJSONRecurse]
    simp only [hbm, Bool.false_eq_true, if_false]
    exact recurseArray_ok key elems buf h
  · intro key pre e post buf err hbm hpre he
    rw [virQEMUBuildCommandLineJSONRecurse]
    simp only [hbm, Bool.false_eq_true, if_false]
    exact recurseArray_stops key pre e post buf err hpre he

/-- Witness for C7: a scalar followed by a null — one fragment for the
scalar, then the null's unsupported-type error is propagated unchanged. -/
theorem c7_fallback_per_element_witness :
    virJSONValueGetArrayAsBitmap [.vstring "x", .vnull] = none
    ∧ virQEMUBuildCommandLineJSONRecurse "k"
        (.varray [.vstring "x", .vnull]) "" false
      = ("" ++ sjoin ([VirJSONValue.vstring "x"].map
            fun x => (virQEMUBuildCommandLineJSONRecurse "k" x "" true).1)
          ++ (virQEMUBuildCommandLineJSONRecurse "k" .vnull "" true).1,
         some .unsupportedType) :=
  ⟨rfl, c7_fallback_per_element.2.1 "k" [.vstring "x"] .vnull [] ""
    .unsupportedType rfl (by decide) rfl⟩

/-- C8: for every non-empty ascending array of distinct non-negative
integers, the run-compressor's fragments partition the input (every integer
in exactly one fragment), are emitted in ascending order separated by gaps
(no two adjacent fragments can merge), and their number is minimal among all
encodings of the set into ranges and singletons. -/
theorem c8_minimal_fragments (b : List Nat) (_hne : b ≠ [])
    (hpw : b.Pairwise (· < ·)) :
    (∀ key buf, bitmapRunLoop key b (bitmapSize b) buf (-1) (b.length + 1)
        = buf ++ sjoin ((runs b).map (runFragment key)))
    ∧ (runs b).Pairwise (fun r s => r.2 + 1 < s.1)
    ∧ (∀ n, n ∈ b ↔ ∃ r ∈ runs b, r.1 ≤ n ∧ n ≤ r.2)
    ∧ (∀ n ∈ b, ∃! r : Nat × Nat, r ∈ runs b ∧ r.1 ≤ n ∧ n ≤ r.2)
    ∧ (∀ cover : List (Nat × Nat),
        (∀ n ∈ b, ∃ c ∈ cover, c.1 ≤ n ∧ n ≤ c.2) →
        (∀ c ∈ cover, ∀ k, c.1 ≤ k → k ≤ c.2 → k ∈ b) →
        (runs b).length ≤ cover.length) := by
  refine ⟨fun key buf => bitmapRunLoop_complete key b buf hpw,
    runs_gap b.length b le_rfl hpw,
    runs_cover b.length b le_rfl hpw,
    fun n hn => runs_unique b hpw n hn,
    fun cover h1 h2 => ?_⟩
  exact runs_min_aux b.length b [] cover le_rfl (by simpa using hpw) h1
    (by simpa using h2)

/-- Witness for C8: the concrete ascending list `[0,1,3]`, whose runs are
`0-1` and `3`. -/
theorem c8_minimal_fragments_witness :
    ([0, 1, 3] : List Nat) ≠ []
    ∧ ([0, 1, 3] : List Nat).Pairwise (· < ·)
    ∧ (runs [0, 1, 3]).Pairwise (fun r s => r.2 + 1 < s.1) := by
  refine ⟨by decide, by decide, ?_⟩
  exact (c8_minimal_fragments [0, 1, 3] (by decide) (by decide)).2.1

/-- C9: every walker call — any key, value, nesting flag, buffer state,
succeeding or failing — only appends: the buffer before the call is a prefix
of the buffer after it. -/
theorem c9_append_only (key : String) (v : VirJSONValue) (buf : String)
    (nested : Bool) :
    ∃ t, (virQEMUBuildCommandLineJSONRecurse key v buf nested).1 = buf ++ t :=
  ⟨(virQEMUBuildCommandLineJSONRecurse key v "" nested).1,
    by rw [recurse_shift]⟩

/-- C10: a top-level walker call succeeds exactly on strings, numbers,
booleans, and arrays that are bitmap-representable or contain only scalars;
in particular a mixed-scalar array and an empty array encode successfully. -/
theorem c10_success_exactly_encodeOk :
    (∀ (key : String) (v : VirJSONValue) (buf : String),
      (virQEMUBuildCommandLineJSONRecurse key v buf false).2 = none
        ↔ encodeOk v = true)
    ∧ virQEMUBuildCommandLineJSONRecurse "k"
        (.varray [.vnumber "1", .vstring "x", .vboolean true]) "" false
        = (",k=1,k=x,k=yes", none)
    ∧ virQEMUBuildCommandLineJSONRecurse "k"
        (.varray ([] : List VirJSONValue)) "" false
        = ("", none) :=
  ⟨fun key v buf => recurse_false_ok key v buf, rfl, rfl⟩

end Virqemu
